import Mathlib

/-!
Shallow embedding of the reconciliation-and-batching core of the
`seller-apis` repository (files `seller.py` and `market.py`), together with
theorems settling the specification claims about it.

Conventions of the embedding:
* Python `dict` rows of the supplier feed become the structure
  `SupplierRecord`; the three feed columns `Код` (offer code),
  `Количество` (quantity text) and `Цена` (price text) are string fields.
* Python exceptions become `Except PyErr`; the only exception kind the
  modelled code can raise is `ValueError` (from `int(...)` and from
  `range(..., 0)`).
* In-place mutation of the `offer_ids` list argument (Python
  `offer_ids.remove(...)`) is modelled by explicit state passing:
  `create_stocks` returns the produced stock entries TOGETHER WITH the
  final value of the caller's `offer_ids` list.
* Machine integers are `Int`/`Nat`; all quantities involved are small and
  Python integers are unbounded, so no wrap-around modelling is needed.
-/

/-- Decidable equality for `Except`, so concrete runs of the embedded
fallible functions can be checked by `decide`. -/
def Except.decEq {ε α} [DecidableEq ε] [DecidableEq α] :
    (a b : Except ε α) → Decidable (a = b)
  | .error e, .error f =>
    if h : e = f then .isTrue (by rw [h]) else .isFalse (by simp [h])
  | .error _, .ok _ => .isFalse (by simp)
  | .ok _, .error _ => .isFalse (by simp)
  | .ok a, .ok b =>
    if h : a = b then .isTrue (by rw [h]) else .isFalse (by simp [h])

instance {ε α} [DecidableEq ε] [DecidableEq α] : DecidableEq (Except ε α) :=
  Except.decEq

/-- The only Python exception kind raised by the embedded code paths:
`ValueError`, raised by `int(...)` on non-numeric text and by
`range(a, b, 0)`. -/
inductive PyErr where
  | valueError
deriving DecidableEq, Repr

/-- One row of the supplier feed (`watch_remnants`): the fields named
`Код`, `Количество`, `Цена` in the spreadsheet, here transliterated as
`kod` (offer code), `kolichestvo` (quantity text), `tsena` (price text).
All three are strings, as in the spec data model (`SupplierRecord`). -/
structure SupplierRecord where
  kod : String
  kolichestvo : String
  tsena : String
deriving DecidableEq, Repr

/-- Base-10 value of a list of ASCII digit characters (most significant
first), as accumulated by Python's integer parsing. -/
def digitsVal (l : List Char) : Nat :=
  l.foldl (fun a c => a * 10 + (c.toNat - 48)) 0

/-- Leading- and trailing-whitespace stripping on a character list, the
`str.strip()` step Python's `int(...)` performs before parsing. -/
def pyStrip (l : List Char) : List Char :=
  ((l.dropWhile Char.isWhitespace).reverse.dropWhile Char.isWhitespace).reverse

/-- Embedding of Python `int(s)` on a string: strip surrounding
whitespace, allow one optional sign, then require a non-empty run of
ASCII digits; anything else raises `ValueError` (here: `none`).
(Python additionally accepts digit-group underscores, which never occur
in the feeds modelled here.) -/
def pyInt (s : String) : Option Int :=
  match pyStrip s.data with
  | '-' :: rest =>
      if rest ≠ [] ∧ rest.all Char.isDigit then some (-(digitsVal rest : Int)) else none
  | '+' :: rest =>
      if rest ≠ [] ∧ rest.all Char.isDigit then some (digitsVal rest) else none
  | l =>
      if l ≠ [] ∧ l.all Char.isDigit then some (digitsVal l) else none

/-- Embedding of `seller.price_conversion`:
`re.sub("[^0-9]", "", price.split(".")[0])`.
`price.split(".")[0]` is the prefix of `price` before the first `'.'`
(the whole string when no `'.'` occurs), embedded as `takeWhile`;
the regex substitution keeps exactly the ASCII digits. -/
def price_conversion (price : String) : String :=
  String.mk ((price.data.takeWhile (fun c => c ≠ '.')).filter Char.isDigit)

/-- The stock-count heuristic shared verbatim by `seller.create_stocks`
and `market.create_stocks`: `">10"` maps to `100`, `"1"` maps to `0`,
any other text goes through `int(...)` (raising `ValueError` when it is
not numeric). -/
def stock_count (q : String) : Except PyErr Int :=
  if q = ">10" then .ok 100
  else if q = "1" then .ok 0
  else
    match pyInt q with
    | some v => .ok v
    | none => .error .valueError

/-- One element of the list built by `seller.create_stocks`:
`{"offer_id": ..., "stock": ...}`. -/
structure StockEntry where
  offer_id : String
  stock : Int
deriving DecidableEq, Repr

/-- The matching loop of `seller.create_stocks` (`for watch in
watch_remnants: ...`): walks the feed in order; a record whose code is in
the current `offer_ids` list appends a stock entry and removes that code
from `offer_ids` (Python `list.remove` deletes the first occurrence,
i.e. `List.erase`). Returns the matched entries and the final value of
the `offer_ids` list. -/
def create_stocks_loop :
    List SupplierRecord → List String → Except PyErr (List StockEntry × List String)
  | [], offer_ids => .ok ([], offer_ids)
  | w :: ws, offer_ids =>
    if w.kod ∈ offer_ids then
      match stock_count w.kolichestvo with
      | .error e => .error e
      | .ok stock =>
        match create_stocks_loop ws (offer_ids.erase w.kod) with
        | .error e => .error e
        | .ok (rest, rem) => .ok (⟨w.kod, stock⟩ :: rest, rem)
    else
      create_stocks_loop ws offer_ids

/-- Embedding of `seller.create_stocks`: the matching loop followed by
the leftover pass that appends a zero-stock entry for every id still in
`offer_ids`. The second component of the result is the final value of
the caller's `offer_ids` list (the loop mutates it in place). -/
def create_stocks (watch_remnants : List SupplierRecord) (offer_ids : List String) :
    Except PyErr (List StockEntry × List String) :=
  match create_stocks_loop watch_remnants offer_ids with
  | .error e => .error e
  | .ok (matched, rem) => .ok (matched ++ rem.map (fun oid => ⟨oid, 0⟩), rem)

/-- One element of the list built by `seller.create_prices`: the literal
dictionary with constant `auto_action_enabled`, `currency_code` and
`old_price` fields. -/
structure PriceEntry where
  auto_action_enabled : String
  currency_code : String
  offer_id : String
  old_price : String
  price : String
deriving DecidableEq, Repr

/-- Embedding of `seller.create_prices`: walks the feed in order and,
for each record whose code is in `offer_ids`, appends a price entry with
`price_conversion` applied to the price text. No code is ever removed
from `offer_ids`, and the function cannot raise. -/
def create_prices :
    List SupplierRecord → List String → List PriceEntry
  | [], _ => []
  | w :: ws, offer_ids =>
    if w.kod ∈ offer_ids then
      ⟨"UNKNOWN", "RUB", w.kod, "0", price_conversion w.tsena⟩ :: create_prices ws offer_ids
    else
      create_prices ws offer_ids

/-- One element of the `items` list inside a `market.create_stocks`
entry: `{"count": ..., "type": "FIT", "updatedAt": date}`. -/
structure MarketItem where
  count : Int
  type : String
  updatedAt : String
deriving DecidableEq, Repr

/-- One element of the list built by `market.create_stocks`:
`{"sku": ..., "warehouseId": ..., "items": [...]}`. -/
structure MarketStockEntry where
  sku : String
  warehouseId : String
  items : List MarketItem
deriving DecidableEq, Repr

/-- The matching loop of `market.create_stocks`: identical matching and
removal logic to `create_stocks_loop`, `market`-shaped payload. -/
def market_create_stocks_loop (warehouse_id date : String) :
    List SupplierRecord → List String → Except PyErr (List MarketStockEntry × List String)
  | [], offer_ids => .ok ([], offer_ids)
  | w :: ws, offer_ids =>
    if w.kod ∈ offer_ids then
      match stock_count w.kolichestvo with
      | .error e => .error e
      | .ok stock =>
        match market_create_stocks_loop warehouse_id date ws (offer_ids.erase w.kod) with
        | .error e => .error e
        | .ok (rest, rem) =>
          .ok (⟨w.kod, warehouse_id, [⟨stock, "FIT", date⟩]⟩ :: rest, rem)
    else
      market_create_stocks_loop warehouse_id date ws offer_ids

/-- Embedding of `market.create_stocks`. The timestamp
`datetime.datetime.utcnow()...` is computed once per call outside the
loop; it is an external clock reading and enters the embedding as the
parameter `date`. The second component is the final value of the
caller's `offer_ids` list. -/
def market_create_stocks (watch_remnants : List SupplierRecord) (offer_ids : List String)
    (warehouse_id date : String) :
    Except PyErr (List MarketStockEntry × List String) :=
  match market_create_stocks_loop warehouse_id date watch_remnants offer_ids with
  | .error e => .error e
  | .ok (matched, rem) =>
    .ok (matched ++ rem.map (fun oid => ⟨oid, warehouse_id, [⟨0, "FIT", date⟩]⟩), rem)

/-- The nested `price` dictionary of a `market.create_prices` entry:
`{"value": int(...), "currencyId": "RUR"}`. -/
structure MarketPrice where
  value : Int
  currencyId : String
deriving DecidableEq, Repr

/-- One element of the list built by `market.create_prices`:
`{"id": ..., "price": {...}}`. -/
structure MarketPriceEntry where
  id : String
  price : MarketPrice
deriving DecidableEq, Repr

/-- Embedding of `market.create_prices`: like `seller.create_prices`
but the converted price text additionally goes through `int(...)`, which
raises `ValueError` when `price_conversion` produced the empty string. -/
def market_create_prices :
    List SupplierRecord → List String → Except PyErr (List MarketPriceEntry)
  | [], _ => .ok []
  | w :: ws, offer_ids =>
    if w.kod ∈ offer_ids then
      match pyInt (price_conversion w.tsena) with
      | none => .error .valueError
      | some v =>
        match market_create_prices ws offer_ids with
        | .error e => .error e
        | .ok rest => .ok (⟨w.kod, ⟨v, "RUR"⟩⟩ :: rest)
    else
      market_create_prices ws offer_ids

/-- Embedding of Python `range(0, stop, step)` as used by
`seller.divide`: `step = 0` raises `ValueError`; a negative `step` with
`0 ≤ stop` yields no indices at all; a positive `step` yields
`0, step, 2*step, ...` while below `stop`, i.e. `ceil(stop/step)`
indices. -/
def pyRange (stop : Nat) (step : Int) : Option (List Nat) :=
  if step = 0 then none
  else if step < 0 then some []
  else some ((List.range ((stop + step.toNat - 1) / step.toNat)).map (fun i => i * step.toNat))

/-- Embedding of `seller.divide`, fully consumed as every call site does
(`list(divide(...))`): `for i in range(0, len(lst), n): yield lst[i:i+n]`.
The slice `lst[i : i+n]` with `0 ≤ i` is `(lst.drop i).take n`. -/
def divide (lst : List α) (n : Int) : Except PyErr (List (List α)) :=
  match pyRange lst.length n with
  | none => .error .valueError
  | some idxs => .ok (idxs.map (fun i => (lst.drop i).take n.toNat))

/-- One catalog item of the Ozon product listing, reduced to the single
field `get_offer_ids` reads from it (`product.get("offer_id")`). -/
structure OzonProduct where
  offer_id : String
deriving DecidableEq, Repr

/-- One response of the page-fetch collaborator `get_product_list`
(the `result` block): the `items` list and the reported `total`. The
`last_id` cursor is threaded through the loop but never inspected by it,
so a deterministic collaborator is modelled as a function from the call
number to the response. -/
structure OzonPage where
  items : List OzonProduct
  total : Nat
deriving DecidableEq, Repr

/-- The `while True` loop of `seller.get_offer_ids`: extend the
accumulated `product_list` with the next page's items and stop as soon
as the reported `total` equals the accumulated length. The loop as
written need not terminate, so the embedding carries explicit fuel
(`none` = the loop is still running after `fuel` iterations). -/
def get_offer_ids_loop (pages : Nat → OzonPage) :
    Nat → Nat → List OzonProduct → Option (List OzonProduct)
  | 0, _, _ => none
  | fuel + 1, k, acc =>
    let acc' := acc ++ (pages k).items
    if (pages k).total = acc'.length then some acc'
    else get_offer_ids_loop pages fuel (k + 1) acc'

/-- Embedding of `seller.get_offer_ids`: run the pagination loop from an
empty accumulator, then project `offer_id` out of every accumulated
item. -/
def get_offer_ids (pages : Nat → OzonPage) (fuel : Nat) : Option (List String) :=
  (get_offer_ids_loop pages fuel 0 []).map (List.map OzonProduct.offer_id)

/-- Concatenation of the items of the first `m` pages, in page order:
the `product_list` accumulated after `m` calls of the collaborator. -/
def prefixItems (pages : Nat → OzonPage) (m : Nat) : List OzonProduct :=
  ((List.range m).map (fun i => (pages i).items)).flatten

/-- The price-parsing algorithm exactly as the specification words it
(§4.1): take the substring preceding the first `'.'`, strip every
character that is not an ASCII digit, and read the remaining digits as a
base-10 non-negative integer. Stated separately from `price_conversion`
so the code can be proved a refinement of the spec's wording. -/
def price_parse_spec (s : String) : Nat :=
  digitsVal ((s.data.takeWhile (fun c => c ≠ '.')).filter Char.isDigit)

/-- Recursive reference form of the chunking `divide` performs for a
positive chunk size `k + 1`: peel off a `take`-block of `k + 1` elements
until the list is exhausted. `divide` is proved equal to it below. -/
def chunksRec : Nat → List α → List (List α)
  | _, [] => []
  | k, a :: t => (a :: t).take (k + 1) :: chunksRec k ((a :: t).drop (k + 1))
termination_by _ l => l.length
decreasing_by
  simp only [List.length_drop, List.length_cons]
  omega

lemma chunksRec_nil (k : Nat) : chunksRec k ([] : List α) = [] := by
  simp only [chunksRec]

lemma chunksRec_cons (k : Nat) (l : List α) (h : l ≠ []) :
    chunksRec k l = l.take (k + 1) :: chunksRec k (l.drop (k + 1)) := by
  cases l with
  | nil => exact absurd rfl h
  | cons a t => simp only [chunksRec]

lemma chunksRec_flatten (k : Nat) (l : List α) : (chunksRec k l).flatten = l := by
  induction k, l using chunksRec.induct with
  | case1 k => simp [chunksRec_nil]
  | case2 k a t ih =>
    rw [chunksRec_cons k (a :: t) (by simp)]
    rw [List.flatten_cons, ih, List.take_append_drop]

/-- Arithmetic core of the batch count: one block of size `k + 1` peeled
off a non-empty list accounts for one unit of `ceil(len/(k+1))`. -/
lemma ceil_div_succ (len k : Nat) (h : len ≠ 0) :
    (len - (k + 1) + k) / (k + 1) + 1 = (len + k) / (k + 1) := by
  rcases Nat.lt_or_ge len (k + 1) with hlt | hge
  · have h1 : len - (k + 1) = 0 := by omega
    have h3 : len + k = (len - 1) + (k + 1) := by omega
    rw [h1, h3, Nat.add_div_right _ (Nat.succ_pos k),
      Nat.div_eq_of_lt (by omega), Nat.div_eq_of_lt (by omega)]
  · have h1 : len - (k + 1) + k = len - 1 := by omega
    have h3 : len + k = (len - 1) + (k + 1) := by omega
    rw [h1, h3, Nat.add_div_right _ (Nat.succ_pos k)]

lemma chunksRec_length (k : Nat) (l : List α) :
    (chunksRec k l).length = (l.length + k) / (k + 1) := by
  induction k, l using chunksRec.induct with
  | case1 k => simp [chunksRec_nil, Nat.div_eq_of_lt]
  | case2 k a t ih =>
    have hl : (a :: t).length ≠ 0 := by simp
    rw [chunksRec_cons k (a :: t) (by simp), List.length_cons, ih, List.length_drop]
    exact ceil_div_succ (a :: t).length k hl

lemma chunksRec_dropLast (k : Nat) (l : List α) :
    ∀ b ∈ (chunksRec k l).dropLast, b.length = k + 1 := by
  induction k, l using chunksRec.induct with
  | case1 k => simp [chunksRec_nil]
  | case2 k a t ih =>
    rw [chunksRec_cons k (a :: t) (by simp)]
    intro b hb
    by_cases hd : (a :: t).drop (k + 1) = []
    · rw [hd, chunksRec_nil] at hb
      simp at hb
    · have hne : chunksRec k ((a :: t).drop (k + 1)) ≠ [] := by
        rw [chunksRec_cons k _ hd]
        simp
      rw [List.dropLast_cons_of_ne_nil hne] at hb
      rcases List.mem_cons.mp hb with rfl | hb
      · have hlen : k + 1 ≤ (a :: t).length := by
          by_contra hc
          exact hd (List.drop_eq_nil_iff.mpr (by omega))
        simp only [List.length_cons] at hlen
        simp only [List.length_take, List.length_cons]
        omega
      · exact ih b hb

lemma chunksRec_mem_length (k : Nat) (l : List α) :
    ∀ b ∈ chunksRec k l, 1 ≤ b.length ∧ b.length ≤ k + 1 := by
  induction k, l using chunksRec.induct with
  | case1 k => simp [chunksRec_nil]
  | case2 k a t ih =>
    rw [chunksRec_cons k (a :: t) (by simp)]
    intro b hb
    rcases List.mem_cons.mp hb with rfl | hb
    · simp only [List.length_take, List.length_cons]
      omega
    · exact ih b hb

lemma chunksRec_ne_nil (k : Nat) (l : List α) (h : l ≠ []) :
    chunksRec k l ≠ [] := by
  rw [chunksRec_cons k l h]
  simp

/-- The index-and-slice form of the loop body of `divide` coincides with
the recursive chunking, for chunk size `k + 1`. -/
lemma range_chunks (k : Nat) (l : List α) :
    (List.range ((l.length + k) / (k + 1))).map
        (fun i => (l.drop (i * (k + 1))).take (k + 1)) = chunksRec k l := by
  induction k, l using chunksRec.induct with
  | case1 k =>
    rw [chunksRec_nil]
    simp [Nat.div_eq_of_lt]
  | case2 k a t ih =>
    have hl : (a :: t).length ≠ 0 := by simp
    rw [chunksRec_cons k (a :: t) (by simp)]
    rw [← ceil_div_succ (a :: t).length k hl, List.range_succ_eq_map, List.map_cons]
    rw [List.length_drop] at ih
    congr 1
    · simp
    · rw [← ih, List.map_map]
      apply List.map_congr_left
      intro i _
      simp only [Function.comp, Nat.succ_eq_add_one]
      have harith : (i + 1) * (k + 1) = k + 1 + i * (k + 1) := by ring
      rw [harith, ← List.drop_drop]

/-- For a positive chunk size, `divide` never raises and produces the
recursive chunking. -/
lemma divide_pos (l : List α) (n : Int) (hn : 0 < n) :
    divide l n = .ok (chunksRec (n.toNat - 1) l) := by
  obtain ⟨k, hk⟩ : ∃ k, n.toNat = k + 1 := ⟨n.toNat - 1, by omega⟩
  unfold divide pyRange
  rw [if_neg (by omega), if_neg (by omega)]
  rw [hk]
  simp only [List.map_map]
  congr 1
  have harg : l.length + (k + 1) - 1 = l.length + k := by omega
  rw [harg, Nat.add_sub_cancel, ← range_chunks k l]
  apply List.map_congr_left
  intro i _
  simp [Function.comp]

/-- Matching-loop invariant for `seller.create_stocks`: on success, the
matched offer ids together with the leftover ids are a permutation of the
initial catalog list, and the leftover list is a sublist of it. -/
lemma create_stocks_loop_perm :
    ∀ (R : List SupplierRecord) (C : List String) (m : List StockEntry) (rem : List String),
      create_stocks_loop R C = .ok (m, rem) →
      (m.map StockEntry.offer_id ++ rem).Perm C ∧ rem.Sublist C := by
  intro R
  induction R with
  | nil =>
    intro C m rem h
    simp only [create_stocks_loop, Except.ok.injEq, Prod.mk.injEq] at h
    obtain ⟨rfl, rfl⟩ := h
    simp
  | cons w ws ih =>
    intro C m rem h
    by_cases hw : w.kod ∈ C
    · rw [create_stocks_loop, if_pos hw] at h
      cases hsc : stock_count w.kolichestvo with
      | error e => rw [hsc] at h; cases h
      | ok stock =>
        rw [hsc] at h
        cases hrec : create_stocks_loop ws (C.erase w.kod) with
        | error e => rw [hrec] at h; cases h
        | ok p =>
          obtain ⟨rest, rem'⟩ := p
          rw [hrec] at h
          simp only [Except.ok.injEq, Prod.mk.injEq] at h
          obtain ⟨rfl, rfl⟩ := h
          obtain ⟨hperm, hsub⟩ := ih (C.erase w.kod) rest rem' hrec
          refine ⟨?_, hsub.trans (List.erase_sublist w.kod C)⟩
          simp only [List.map_cons, List.cons_append]
          exact (hperm.cons w.kod).trans (List.perm_cons_erase hw).symm
    · rw [create_stocks_loop, if_neg hw] at h
      exact ih C m rem h

/-- On a duplicate-free catalog list, every feed record's code is absent
from the leftover list `seller.create_stocks` leaves behind: the first
occurrence of a catalog code consumes it, and codes outside the catalog
were never there. -/
lemma create_stocks_loop_consumed :
    ∀ (R : List SupplierRecord) (C : List String), C.Nodup →
      ∀ (m : List StockEntry) (rem : List String),
        create_stocks_loop R C = .ok (m, rem) →
        ∀ w ∈ R, w.kod ∉ rem := by
  intro R
  induction R with
  | nil => intro C _ m rem _ w hw; cases hw
  | cons w ws ih =>
    intro C hC m rem h w' hw'
    by_cases hw : w.kod ∈ C
    · rw [create_stocks_loop, if_pos hw] at h
      cases hsc : stock_count w.kolichestvo with
      | error e => rw [hsc] at h; cases h
      | ok stock =>
        rw [hsc] at h
        cases hrec : create_stocks_loop ws (C.erase w.kod) with
        | error e => rw [hrec] at h; cases h
        | ok p =>
          obtain ⟨rest, rem'⟩ := p
          rw [hrec] at h
          simp only [Except.ok.injEq, Prod.mk.injEq] at h
          obtain ⟨rfl, rfl⟩ := h
          have hsub : rem'.Sublist (C.erase w.kod) :=
            (create_stocks_loop_perm ws (C.erase w.kod) rest rem' hrec).2
          rcases List.mem_cons.mp hw' with rfl | hw'
          · intro hmem
            have : w'.kod ∈ C.erase w'.kod := hsub.subset hmem
            exact ((hC.mem_erase_iff).mp this).1 rfl
          · exact ih (C.erase w.kod) (hC.erase w.kod) rest rem' hrec w' hw'
    · rw [create_stocks_loop, if_neg hw] at h
      rcases List.mem_cons.mp hw' with rfl | hw'
      · intro hmem
        exact hw ((create_stocks_loop_perm ws C m rem h).2.subset hmem)
      · exact ih C hC m rem h w' hw'

/-- If no record's code is in the id list, `seller.create_prices`
produces nothing. -/
lemma create_prices_eq_nil :
    ∀ (R : List SupplierRecord) (ids : List String),
      (∀ w ∈ R, w.kod ∉ ids) → create_prices R ids = [] := by
  intro R
  induction R with
  | nil => intro ids _; rfl
  | cons w ws ih =>
    intro ids h
    rw [create_prices, if_neg (h w (List.mem_cons_self w ws))]
    exact ih ids (fun w' hw' => h w' (List.mem_cons_of_mem w hw'))

/-- Matching-loop invariant for `market.create_stocks`, identical in
structure to `create_stocks_loop_perm`. -/
lemma market_create_stocks_loop_perm :
    ∀ (R : List SupplierRecord) (C : List String) (wh d : String)
      (m : List MarketStockEntry) (rem : List String),
      market_create_stocks_loop wh d R C = .ok (m, rem) →
      (m.map MarketStockEntry.sku ++ rem).Perm C ∧ rem.Sublist C := by
  intro R
  induction R with
  | nil =>
    intro C wh d m rem h
    simp only [market_create_stocks_loop, Except.ok.injEq, Prod.mk.injEq] at h
    obtain ⟨rfl, rfl⟩ := h
    simp
  | cons w ws ih =>
    intro C wh d m rem h
    by_cases hw : w.kod ∈ C
    · rw [market_create_stocks_loop, if_pos hw] at h
      cases hsc : stock_count w.kolichestvo with
      | error e => rw [hsc] at h; cases h
      | ok stock =>
        rw [hsc] at h
        cases hrec : market_create_stocks_loop wh d ws (C.erase w.kod) with
        | error e => rw [hrec] at h; cases h
        | ok p =>
          obtain ⟨rest, rem'⟩ := p
          rw [hrec] at h
          simp only [Except.ok.injEq, Prod.mk.injEq] at h
          obtain ⟨rfl, rfl⟩ := h
          obtain ⟨hperm, hsub⟩ := ih (C.erase w.kod) wh d rest rem' hrec
          refine ⟨?_, hsub.trans (List.erase_sublist w.kod C)⟩
          simp only [List.map_cons, List.cons_append]
          exact (hperm.cons w.kod).trans (List.perm_cons_erase hw).symm
    · rw [market_create_stocks_loop, if_neg hw] at h
      exact ih C wh d m rem h

/-- The matching loop is compositional over the feed: running it on
`xs ++ ys` is running it on `xs`, then on `ys` from the id list `xs`
left behind. -/
lemma create_stocks_loop_append :
    ∀ (xs ys : List SupplierRecord) (A : List String),
      create_stocks_loop (xs ++ ys) A =
        match create_stocks_loop xs A with
        | .error e => .error e
        | .ok (m1, A1) =>
          match create_stocks_loop ys A1 with
          | .error e => .error e
          | .ok (m2, A2) => .ok (m1 ++ m2, A2) := by
  intro xs
  induction xs with
  | nil =>
    intro ys A
    simp only [List.nil_append, create_stocks_loop]
    cases h : create_stocks_loop ys A with
    | error e => rfl
    | ok p =>
      obtain ⟨m2, A2⟩ := p
      simp
  | cons w ws ih =>
    intro ys A
    simp only [List.cons_append]
    rw [create_stocks_loop, create_stocks_loop]
    by_cases hw : w.kod ∈ A
    · rw [if_pos hw, if_pos hw]
      cases hsc : stock_count w.kolichestvo with
      | error e => rfl
      | ok v =>
        rw [ih ys (A.erase w.kod)]
        cases h1 : create_stocks_loop ws (A.erase w.kod) with
        | error e => rfl
        | ok p =>
          obtain ⟨m1, A1⟩ := p
          cases h2 : create_stocks_loop ys A1 with
          | error e => simp [h2]
          | ok q =>
            obtain ⟨m2, A2⟩ := q
            simp [h2]
    · rw [if_neg hw, if_neg hw]
      exact ih ys A

/-- Every matched stock entry carries the offer code of some feed
record. -/
lemma create_stocks_loop_ids_from_records :
    ∀ (ws : List SupplierRecord) (A : List String) (m : List StockEntry) (rem : List String),
      create_stocks_loop ws A = .ok (m, rem) →
      ∀ e ∈ m, ∃ w, w ∈ ws ∧ e.offer_id = w.kod := by
  intro ws
  induction ws with
  | nil =>
    intro A m rem h e he
    simp only [create_stocks_loop, Except.ok.injEq, Prod.mk.injEq] at h
    obtain ⟨rfl, rfl⟩ := h
    cases he
  | cons w ws ih =>
    intro A m rem h e he
    by_cases hw : w.kod ∈ A
    · rw [create_stocks_loop, if_pos hw] at h
      cases hsc : stock_count w.kolichestvo with
      | error e2 => rw [hsc] at h; cases h
      | ok v =>
        rw [hsc] at h
        cases hrec : create_stocks_loop ws (A.erase w.kod) with
        | error e2 => rw [hrec] at h; cases h
        | ok p =>
          obtain ⟨m1, A1⟩ := p
          rw [hrec] at h
          simp only [Except.ok.injEq, Prod.mk.injEq] at h
          obtain ⟨rfl, rfl⟩ := h
          rcases List.mem_cons.mp he with rfl | he2
          · exact ⟨w, List.mem_cons_self w ws, rfl⟩
          · obtain ⟨w2, hw2, he3⟩ := ih (A.erase w.kod) m1 A1 hrec e he2
            exact ⟨w2, List.mem_cons_of_mem w hw2, he3⟩
    · rw [create_stocks_loop, if_neg hw] at h
      obtain ⟨w2, hw2, he3⟩ := ih A m rem h e he
      exact ⟨w2, List.mem_cons_of_mem w hw2, he3⟩

/-- Every matched stock entry carries an offer id drawn from the id list
the loop started with. -/
lemma create_stocks_loop_ids_mem :
    ∀ (ws : List SupplierRecord) (A : List String) (m : List StockEntry) (rem : List String),
      create_stocks_loop ws A = .ok (m, rem) → ∀ e ∈ m, e.offer_id ∈ A := by
  intro ws
  induction ws with
  | nil =>
    intro A m rem h e he
    simp only [create_stocks_loop, Except.ok.injEq, Prod.mk.injEq] at h
    obtain ⟨rfl, rfl⟩ := h
    cases he
  | cons w ws ih =>
    intro A m rem h e he
    by_cases hw : w.kod ∈ A
    · rw [create_stocks_loop, if_pos hw] at h
      cases hsc : stock_count w.kolichestvo with
      | error e2 => rw [hsc] at h; cases h
      | ok v =>
        rw [hsc] at h
        cases hrec : create_stocks_loop ws (A.erase w.kod) with
        | error e2 => rw [hrec] at h; cases h
        | ok p =>
          obtain ⟨m1, A1⟩ := p
          rw [hrec] at h
          simp only [Except.ok.injEq, Prod.mk.injEq] at h
          obtain ⟨rfl, rfl⟩ := h
          rcases List.mem_cons.mp he with rfl | he2
          · exact hw
          · exact List.erase_subset w.kod A (ih (A.erase w.kod) m1 A1 hrec e he2)
    · rw [create_stocks_loop, if_neg hw] at h
      exact ih A m rem h e he

/-- An id none of the processed records carries survives the matching
loop into its leftover list. -/
lemma create_stocks_loop_keeps_code (c : String) :
    ∀ (ws : List SupplierRecord) (A : List String) (m : List StockEntry) (rem : List String),
      create_stocks_loop ws A = .ok (m, rem) → (∀ w ∈ ws, w.kod ≠ c) →
      c ∈ A → c ∈ rem := by
  intro ws
  induction ws with
  | nil =>
    intro A m rem h _ hc
    simp only [create_stocks_loop, Except.ok.injEq, Prod.mk.injEq] at h
    obtain ⟨rfl, rfl⟩ := h
    exact hc
  | cons w ws ih =>
    intro A m rem h hne hc
    by_cases hw : w.kod ∈ A
    · rw [create_stocks_loop, if_pos hw] at h
      cases hsc : stock_count w.kolichestvo with
      | error e2 => rw [hsc] at h; cases h
      | ok v =>
        rw [hsc] at h
        cases hrec : create_stocks_loop ws (A.erase w.kod) with
        | error e2 => rw [hrec] at h; cases h
        | ok p =>
          obtain ⟨m1, A1⟩ := p
          rw [hrec] at h
          simp only [Except.ok.injEq, Prod.mk.injEq] at h
          obtain ⟨rfl, rfl⟩ := h
          refine ih (A.erase w.kod) m1 A1 hrec
            (fun w2 hw2 => hne w2 (List.mem_cons_of_mem w hw2)) ?_
          exact (List.mem_erase_of_ne (hne w (List.mem_cons_self w ws)).symm).mpr hc
    · rw [create_stocks_loop, if_neg hw] at h
      exact ih A m rem h (fun w2 hw2 => hne w2 (List.mem_cons_of_mem w hw2)) hc

/-- Feed records whose code is not in the current id list are invisible
to the matching loop: filtering them out changes nothing. -/
lemma create_stocks_loop_filter_skip (c : String) :
    ∀ (ws : List SupplierRecord) (A : List String), c ∉ A →
      create_stocks_loop (ws.filter (fun u => u.kod != c)) A = create_stocks_loop ws A := by
  intro ws
  induction ws with
  | nil => intro A _; rfl
  | cons w ws ih =>
    intro A hc
    by_cases hwc : w.kod = c
    · rw [List.filter_cons_of_neg (by simp [hwc])]
      rw [create_stocks_loop, if_neg (by rw [hwc]; exact hc)]
      exact ih A hc
    · rw [List.filter_cons_of_pos (by simp [hwc])]
      rw [create_stocks_loop, create_stocks_loop]
      by_cases hw : w.kod ∈ A
      · rw [if_pos hw, if_pos hw]
        cases stock_count w.kolichestvo with
        | error e => rfl
        | ok v =>
          rw [ih (A.erase w.kod) (fun hmem => hc (List.erase_subset w.kod A hmem))]
      · rw [if_neg hw, if_neg hw]
        exact ih A hc

/-- The price entries `create_prices` emits for a catalog code `c` are
one per feed record carrying that code, each built from its own
record. -/
lemma create_prices_filter_code (c : String) :
    ∀ (R : List SupplierRecord) (C : List String), c ∈ C →
      (create_prices R C).filter (fun p => p.offer_id == c) =
        (R.filter (fun w => w.kod == c)).map
          (fun w => ⟨"UNKNOWN", "RUB", c, "0", price_conversion w.tsena⟩) := by
  intro R
  induction R with
  | nil => intro C _; rfl
  | cons w ws ih =>
    intro C hc
    by_cases hwc : w.kod = c
    · rw [create_prices, if_pos (hwc ▸ hc)]
      rw [List.filter_cons_of_pos (by simp [hwc]), List.filter_cons_of_pos (by simp [hwc])]
      rw [List.map_cons, ih C hc, hwc]
    · by_cases hw : w.kod ∈ C
      · rw [create_prices, if_pos hw]
        rw [List.filter_cons_of_neg (by simp [hwc]), List.filter_cons_of_neg (by simp [hwc])]
        exact ih C hc
      · rw [create_prices, if_neg hw]
        rw [List.filter_cons_of_neg (by simp [hwc])]
        exact ih C hc

/-- Market analogue of `create_stocks_loop_consumed`: on a duplicate-free
catalog, no feed record's code survives into the leftover list of
`market.create_stocks`. -/
lemma market_create_stocks_loop_consumed :
    ∀ (R : List SupplierRecord) (C : List String), C.Nodup →
      ∀ (wh d : String) (m : List MarketStockEntry) (rem : List String),
        market_create_stocks_loop wh d R C = .ok (m, rem) →
        ∀ w ∈ R, w.kod ∉ rem := by
  intro R
  induction R with
  | nil => intro C _ wh d m rem _ w hw; cases hw
  | cons w ws ih =>
    intro C hC wh d m rem h w' hw'
    by_cases hw : w.kod ∈ C
    · rw [market_create_stocks_loop, if_pos hw] at h
      cases hsc : stock_count w.kolichestvo with
      | error e => rw [hsc] at h; cases h
      | ok stock =>
        rw [hsc] at h
        cases hrec : market_create_stocks_loop wh d ws (C.erase w.kod) with
        | error e => rw [hrec] at h; cases h
        | ok p =>
          obtain ⟨rest, rem'⟩ := p
          rw [hrec] at h
          simp only [Except.ok.injEq, Prod.mk.injEq] at h
          obtain ⟨rfl, rfl⟩ := h
          have hsub : rem'.Sublist (C.erase w.kod) :=
            (market_create_stocks_loop_perm ws (C.erase w.kod) wh d rest rem' hrec).2
          rcases List.mem_cons.mp hw' with rfl | hw'
          · intro hmem
            have : w'.kod ∈ C.erase w'.kod := hsub.subset hmem
            exact ((hC.mem_erase_iff).mp this).1 rfl
          · exact ih (C.erase w.kod) (hC.erase w.kod) wh d rest rem' hrec w' hw'
    · rw [market_create_stocks_loop, if_neg hw] at h
      rcases List.mem_cons.mp hw' with rfl | hw'
      · intro hmem
        exact hw ((market_create_stocks_loop_perm ws C wh d m rem h).2.subset hmem)
      · exact ih C hC wh d m rem h w' hw'

/-- C1: for a duplicate-free catalog list `C` and any feed `R`, the offer
ids across all stock updates returned by `create_stocks` (seller) and
`market.create_stocks` are exactly `C`, each id exactly once: the
projected id list is a permutation of `C` and has no duplicates, every
catalog id being covered either by a matched entry or by a synthesized
zero-stock entry. -/
theorem C1_stock_completeness (R : List SupplierRecord) (C : List String)
    (hC : C.Nodup) :
    (∀ res rem, create_stocks R C = .ok (res, rem) →
      (res.map StockEntry.offer_id).Perm C ∧ (res.map StockEntry.offer_id).Nodup) ∧
    (∀ wh d res rem, market_create_stocks R C wh d = .ok (res, rem) →
      (res.map MarketStockEntry.sku).Perm C ∧ (res.map MarketStockEntry.sku).Nodup) := by
  constructor
  · intro res rem h
    unfold create_stocks at h
    cases hloop : create_stocks_loop R C with
    | error e => rw [hloop] at h; cases h
    | ok p =>
      obtain ⟨matched, rem0⟩ := p
      rw [hloop] at h
      simp only [Except.ok.injEq, Prod.mk.injEq] at h
      obtain ⟨rfl, rfl⟩ := h
      obtain ⟨hperm, _⟩ := create_stocks_loop_perm R C matched rem0 hloop
      have hmap :
          ((matched ++ rem0.map (fun oid => (⟨oid, 0⟩ : StockEntry))).map StockEntry.offer_id)
            = matched.map StockEntry.offer_id ++ rem0 := by
        simp [List.map_map, Function.comp_def]
      rw [hmap]
      exact ⟨hperm, (hperm.nodup_iff).mpr hC⟩
  · intro wh d res rem h
    unfold market_create_stocks at h
    cases hloop : market_create_stocks_loop wh d R C with
    | error e => rw [hloop] at h; cases h
    | ok p =>
      obtain ⟨matched, rem0⟩ := p
      rw [hloop] at h
      simp only [Except.ok.injEq, Prod.mk.injEq] at h
      obtain ⟨rfl, rfl⟩ := h
      obtain ⟨hperm, _⟩ := market_create_stocks_loop_perm R C wh d matched rem0 hloop
      have hmap :
          ((matched ++ rem0.map (fun oid =>
              (⟨oid, wh, [⟨0, "FIT", d⟩]⟩ : MarketStockEntry))).map MarketStockEntry.sku)
            = matched.map MarketStockEntry.sku ++ rem0 := by
        simp [List.map_map, Function.comp_def]
      rw [hmap]
      exact ⟨hperm, (hperm.nodup_iff).mpr hC⟩

/-- C1 witness: a one-record feed against the two-id catalog
`["A", "B"]` produces the matched update for `"A"` and the synthesized
zero update for `"B"`, ids exactly `{"A", "B"}`. -/
theorem C1_stock_completeness_witness :
    (["A", "B"] : List String).Nodup ∧
    ((([⟨"A", 100⟩, ⟨"B", 0⟩] : List StockEntry).map StockEntry.offer_id).Perm ["A", "B"] ∧
      (([⟨"A", 100⟩, ⟨"B", 0⟩] : List StockEntry).map StockEntry.offer_id).Nodup) :=
  ⟨by decide,
   (C1_stock_completeness [⟨"A", ">10", "p"⟩] ["A", "B"] (by decide)).1
     [⟨"A", 100⟩, ⟨"B", 0⟩] ["B"] (by decide)⟩
/-- C2 counterexample: two feed records with the same code `"A"` matching
the catalog `["A"]`. The claim demands exactly ONE price update for
`"A"`, derived from the first record only; `create_prices` removes
nothing from `offer_ids`, so BOTH duplicates match and the result holds
two price updates for `"A"` (the second derived from the second
record). -/
theorem C2_counterexample :
    create_prices [⟨"A", "5", "100"⟩, ⟨"A", "7", "200"⟩] ["A"] =
      [⟨"UNKNOWN", "RUB", "A", "0", "100"⟩, ⟨"UNKNOWN", "RUB", "A", "0", "200"⟩] ∧
    (create_prices [⟨"A", "5", "100"⟩, ⟨"A", "7", "200"⟩] ["A"]).length ≠ 1 := by
  decide

/-- C2 (amended): for every duplicate-free catalog `C` containing the
code `c` and every feed `pre ++ r1 :: post` in which `r1` is the FIRST
record with code `c` and `post` holds at least one further record with
code `c`: (i) on success the stock pass returns exactly one stock update
for `c`, its count derived from `r1`; (ii) the later duplicates are
invisible to the stock pass — removing them from the feed changes its
entire result (value or error) not at all, so they produce no update and
no error; (iii) the price pass, by contrast, returns one price update
for `c` per record carrying `c`, each derived from its own record, not
only from the first. -/
theorem C2_amended_duplicate (C : List String) (c : String)
    (pre post : List SupplierRecord) (r1 : SupplierRecord)
    (hC : C.Nodup) (hc : c ∈ C) (h1 : r1.kod = c)
    (hpre : ∀ w ∈ pre, w.kod ≠ c) (hdup : ∃ r2, r2 ∈ post ∧ r2.kod = c) :
    (∀ res rem, create_stocks (pre ++ r1 :: post) C = .ok (res, rem) →
      ∃ v, stock_count r1.kolichestvo = .ok v ∧
        res.filter (fun e => e.offer_id == c) = [⟨c, v⟩]) ∧
    create_stocks (pre ++ r1 :: post) C =
      create_stocks (pre ++ r1 :: post.filter (fun u => u.kod != c)) C ∧
    (create_prices (pre ++ r1 :: post) C).filter (fun p => p.offer_id == c) =
      ((pre ++ r1 :: post).filter (fun w => w.kod == c)).map
        (fun w => ⟨"UNKNOWN", "RUB", c, "0", price_conversion w.tsena⟩) := by
  subst h1
  refine ⟨?_, ?_, ?_⟩
  · intro res rem h
    unfold create_stocks at h
    cases hloop : create_stocks_loop (pre ++ r1 :: post) C with
    | error e => rw [hloop] at h; cases h
    | ok p =>
      obtain ⟨M, rem0⟩ := p
      rw [hloop] at h
      simp only [Except.ok.injEq, Prod.mk.injEq] at h
      obtain ⟨rfl, rfl⟩ := h
      rw [create_stocks_loop_append] at hloop
      cases hpre_run : create_stocks_loop pre C with
      | error e =>
        rw [hpre_run] at hloop
        simp at hloop
      | ok q =>
        obtain ⟨m1, A1⟩ := q
        rw [hpre_run] at hloop
        simp only [Except.ok.injEq, Prod.mk.injEq] at hloop
        have hcA1 : r1.kod ∈ A1 :=
          create_stocks_loop_keeps_code r1.kod pre C m1 A1 hpre_run hpre hc
        have hA1nd : A1.Nodup :=
          ((create_stocks_loop_perm pre C m1 A1 hpre_run).2).nodup hC
        rw [create_stocks_loop, if_pos hcA1] at hloop
        cases hsc : stock_count r1.kolichestvo with
        | error e =>
          rw [hsc] at hloop
          simp at hloop
        | ok v =>
          rw [hsc] at hloop
          cases hpost_run : create_stocks_loop post (A1.erase r1.kod) with
          | error e =>
            rw [hpost_run] at hloop
            simp at hloop
          | ok q2 =>
            obtain ⟨m3, A3⟩ := q2
            rw [hpost_run] at hloop
            simp only [Except.ok.injEq, Prod.mk.injEq] at hloop
            obtain ⟨rfl, rfl⟩ := hloop
            refine ⟨v, rfl, ?_⟩
            have hm1 : m1.filter (fun e => e.offer_id == r1.kod) = [] := by
              rw [List.filter_eq_nil_iff]
              intro e he
              obtain ⟨w, hw, hid⟩ :=
                create_stocks_loop_ids_from_records pre C m1 A1 hpre_run e he
              simp [hid, hpre w hw]
            have hm3 : m3.filter (fun e => e.offer_id == r1.kod) = [] := by
              rw [List.filter_eq_nil_iff]
              intro e he
              have hmem := create_stocks_loop_ids_mem post (A1.erase r1.kod) m3 A3
                hpost_run e he
              have hne : e.offer_id ≠ r1.kod := by
                intro hEq
                rw [hEq] at hmem
                exact ((hA1nd.mem_erase_iff).mp hmem).1 rfl
              simp [hne]
            have hremNil : (A3.map (fun oid => (⟨oid, 0⟩ : StockEntry))).filter
                (fun e => e.offer_id == r1.kod) = [] := by
              rw [List.filter_eq_nil_iff]
              intro e he
              obtain ⟨oid, hoid, rfl⟩ := List.mem_map.mp he
              have hsub3 : A3.Sublist (A1.erase r1.kod) :=
                (create_stocks_loop_perm post (A1.erase r1.kod) m3 A3 hpost_run).2
              have hne : oid ≠ r1.kod := by
                intro hEq
                have hmem : oid ∈ A1.erase r1.kod := hsub3.subset hoid
                rw [hEq] at hmem
                exact ((hA1nd.mem_erase_iff).mp hmem).1 rfl
              simp [hne]
            rw [List.filter_append, List.filter_append, hm1,
              List.filter_cons_of_pos (by simp), hm3, hremNil]
            simp
  · unfold create_stocks
    rw [create_stocks_loop_append, create_stocks_loop_append]
    cases hpre_run : create_stocks_loop pre C with
    | error e => rfl
    | ok q =>
      obtain ⟨m1, A1⟩ := q
      have hA1nd : A1.Nodup :=
        ((create_stocks_loop_perm pre C m1 A1 hpre_run).2).nodup hC
      have hinner : create_stocks_loop (r1 :: post) A1 =
          create_stocks_loop (r1 :: post.filter (fun u => u.kod != r1.kod)) A1 := by
        rw [create_stocks_loop, create_stocks_loop]
        by_cases hcA : r1.kod ∈ A1
        · rw [if_pos hcA, if_pos hcA]
          cases stock_count r1.kolichestvo with
          | error e => rfl
          | ok v =>
            rw [create_stocks_loop_filter_skip r1.kod post (A1.erase r1.kod)
              (fun hmem => ((hA1nd.mem_erase_iff).mp hmem).1 rfl)]
        · rw [if_neg hcA, if_neg hcA]
          rw [create_stocks_loop_filter_skip r1.kod post A1 hcA]
      simp only [Except.ok.injEq, Prod.mk.injEq]
      rw [hinner]
  · exact create_prices_filter_code r1.kod (pre ++ r1 :: post) C hc

/-- C2 witness: catalog `["A", "B"]`, feed with a leading `"B"` record,
the first `"A"` record (stock `7`), an unmatched record and a later
`"A"` duplicate with unparseable quantity: one stock update for `"A"`
derived from the first `"A"` record, the duplicate removable without any
effect (in particular no error from its quantity), and two price updates
for `"A"`, one per duplicate. -/
theorem C2_amended_duplicate_witness :
    (∀ res rem,
      create_stocks [⟨"B", "3", "7"⟩, ⟨"A", "7", "10"⟩, ⟨"X", "9", "1"⟩, ⟨"A", "zzz", "20"⟩]
          ["A", "B"] = .ok (res, rem) →
      ∃ v, stock_count "7" = .ok v ∧
        res.filter (fun e => e.offer_id == "A") = [⟨"A", v⟩]) ∧
    create_stocks [⟨"B", "3", "7"⟩, ⟨"A", "7", "10"⟩, ⟨"X", "9", "1"⟩, ⟨"A", "zzz", "20"⟩]
        ["A", "B"] =
      create_stocks [⟨"B", "3", "7"⟩, ⟨"A", "7", "10"⟩, ⟨"X", "9", "1"⟩] ["A", "B"] ∧
    (create_prices [⟨"B", "3", "7"⟩, ⟨"A", "7", "10"⟩, ⟨"X", "9", "1"⟩, ⟨"A", "zzz", "20"⟩]
        ["A", "B"]).filter (fun p => p.offer_id == "A") =
      [⟨"UNKNOWN", "RUB", "A", "0", price_conversion "10"⟩,
        ⟨"UNKNOWN", "RUB", "A", "0", price_conversion "20"⟩] :=
  C2_amended_duplicate ["A", "B"] "A" [⟨"B", "3", "7"⟩]
    [⟨"X", "9", "1"⟩, ⟨"A", "zzz", "20"⟩] ⟨"A", "7", "10"⟩
    (by decide) (by decide) rfl (by decide) ⟨⟨"A", "zzz", "20"⟩, by decide, rfl⟩

/-- C3 counterexample: `create_stocks` on feed `[{Код: "A", ...}]` and
catalog `["A"]`. The second component of the embedded result is the
caller's `offer_ids` list after the call: it is `[]`, not the original
`["A"]` — the matched id was removed in place, so the claim that the
caller's list is unchanged is false. -/
theorem C3_counterexample :
    create_stocks [⟨"A", "5", "x"⟩] ["A"] = .ok ([⟨"A", 5⟩], []) ∧
    ([] : List String) ≠ ["A"] := by
  decide

/-- C3 (amended): `create_prices` performs no removal and leaves the
caller's list untouched, but `create_stocks` (both marketplaces) mutates
it: every matched id is removed in place, so on return the caller's list
is the sublist of `C` holding exactly the unmatched ids — no record's
code remains in it, and the result splits into matched entries plus
zero-stock entries for precisely the ids left in the caller's list. -/
theorem C3_amended_mutation (R : List SupplierRecord) (C : List String) (hC : C.Nodup) :
    (∀ res rem, create_stocks R C = .ok (res, rem) →
      rem.Sublist C ∧ (∀ w ∈ R, w.kod ∉ rem) ∧
      ∃ matched, res = matched ++ rem.map (fun oid => (⟨oid, 0⟩ : StockEntry)) ∧
        (matched.map StockEntry.offer_id ++ rem).Perm C) ∧
    (∀ wh d res rem, market_create_stocks R C wh d = .ok (res, rem) →
      rem.Sublist C ∧ (∀ w ∈ R, w.kod ∉ rem) ∧
      ∃ matched, res = matched ++ rem.map (fun oid =>
          (⟨oid, wh, [⟨0, "FIT", d⟩]⟩ : MarketStockEntry)) ∧
        (matched.map MarketStockEntry.sku ++ rem).Perm C) := by
  constructor
  · intro res rem h
    unfold create_stocks at h
    cases hloop : create_stocks_loop R C with
    | error e => rw [hloop] at h; cases h
    | ok p =>
      obtain ⟨matched, rem0⟩ := p
      rw [hloop] at h
      simp only [Except.ok.injEq, Prod.mk.injEq] at h
      obtain ⟨rfl, rfl⟩ := h
      obtain ⟨hperm, hsub⟩ := create_stocks_loop_perm R C matched rem0 hloop
      exact ⟨hsub, create_stocks_loop_consumed R C hC matched rem0 hloop,
        matched, rfl, hperm⟩
  · intro wh d res rem h
    unfold market_create_stocks at h
    cases hloop : market_create_stocks_loop wh d R C with
    | error e => rw [hloop] at h; cases h
    | ok p =>
      obtain ⟨matched, rem0⟩ := p
      rw [hloop] at h
      simp only [Except.ok.injEq, Prod.mk.injEq] at h
      obtain ⟨rfl, rfl⟩ := h
      obtain ⟨hperm, hsub⟩ := market_create_stocks_loop_perm R C wh d matched rem0 hloop
      exact ⟨hsub, market_create_stocks_loop_consumed R C hC wh d matched rem0 hloop,
        matched, rfl, hperm⟩

/-- C3 amended witness at the counterexample input, for both variants:
the post-call list `[]` is a sublist of `["A"]` holding no matched code,
and each result is the matched entry plus no synthesized entries. -/
theorem C3_amended_mutation_witness :
    (([] : List String).Sublist ["A"] ∧
      (∀ w ∈ ([⟨"A", "5", "x"⟩] : List SupplierRecord), w.kod ∉ ([] : List String)) ∧
      ∃ matched, ([⟨"A", 5⟩] : List StockEntry) =
          matched ++ ([] : List String).map (fun oid => (⟨oid, 0⟩ : StockEntry)) ∧
        (matched.map StockEntry.offer_id ++ ([] : List String)).Perm ["A"]) ∧
    (([] : List String).Sublist ["A"] ∧
      (∀ w ∈ ([⟨"A", "5", "x"⟩] : List SupplierRecord), w.kod ∉ ([] : List String)) ∧
      ∃ matched, ([⟨"A", "W", [⟨5, "FIT", "D"⟩]⟩] : List MarketStockEntry) =
          matched ++ ([] : List String).map (fun oid =>
            (⟨oid, "W", [⟨0, "FIT", "D"⟩]⟩ : MarketStockEntry)) ∧
        (matched.map MarketStockEntry.sku ++ ([] : List String)).Perm ["A"]) :=
  ⟨(C3_amended_mutation [⟨"A", "5", "x"⟩] ["A"] (by decide)).1 [⟨"A", 5⟩] [] (by decide),
   (C3_amended_mutation [⟨"A", "5", "x"⟩] ["A"] (by decide)).2 "W" "D"
     [⟨"A", "W", [⟨5, "FIT", "D"⟩]⟩] [] (by decide)⟩

/-- C10: when `create_prices` is called after `create_stocks` on the very
same (mutated) `offer_ids` list — as `seller.main` does — it matches only
the ids the stock pass left unconsumed; since the stock pass consumes the
id of every record whose code was in the (duplicate-free) catalog, the
returned price-update list is empty. -/
theorem C10_prices_empty_after_stocks (R : List SupplierRecord) (C : List String)
    (hC : C.Nodup) :
    ∀ res rem, create_stocks R C = .ok (res, rem) → create_prices R rem = [] := by
  intro res rem h
  unfold create_stocks at h
  cases hloop : create_stocks_loop R C with
  | error e => rw [hloop] at h; cases h
  | ok p =>
    obtain ⟨matched, rem0⟩ := p
    rw [hloop] at h
    simp only [Except.ok.injEq, Prod.mk.injEq] at h
    obtain ⟨rfl, rfl⟩ := h
    exact create_prices_eq_nil R rem0
      (fun w hw => create_stocks_loop_consumed R C hC matched rem0 hloop w hw)

/-- C10 witness: after the stock pass consumed `"A"`, the price pass over
the same list produces nothing. -/
theorem C10_prices_empty_after_stocks_witness :
    create_prices [⟨"A", "5", "30"⟩] [] = [] :=
  C10_prices_empty_after_stocks [⟨"A", "5", "30"⟩] ["A"] (by decide) [⟨"A", 5⟩] []
    (by decide)
/-- C4: `price_conversion` computes exactly the integer the spec
describes — digits of the prefix before the first `'.'`, read base-10 —
so that the spec-worded algorithm `price_parse_spec` agrees with the
code on every input; on the spec's example the result is `5990`
(`"5990"` as the digit string the seller variant ships, `5990` through
`int(...)` as the market variant ships), and fractional cents are
truncated, never rounded (`"199.99 руб."` gives `199`, not `200`). -/
theorem C4_price_parse (s : String) :
    digitsVal (price_conversion s).data = price_parse_spec s ∧
    price_conversion "5\x27990.00 руб." = "5990" ∧
    pyInt (price_conversion "5\x27990.00 руб.") = some 5990 ∧
    price_conversion "1200 руб." = "1200" ∧
    pyInt (price_conversion "199.99 руб.") = some 199 :=
  ⟨rfl, by decide, by decide, by decide, by decide⟩

/-- C5 counterexample: on the empty string — whose prefix before the
first `'.'` has no digit — `price_conversion` does not raise anything:
it RETURNS the empty string, contradicting the claim that it raises an
invalid-price error rather than returning a value. -/
theorem C5_counterexample : price_conversion "" = "" := rfl

/-- C5 (amended): when the portion of `s` before the first `'.'`
contains no ASCII digit, `price_conversion` itself returns `""` without
error; the error surfaces only in `market.create_prices`, whose
`int(price_conversion(...))` raises `ValueError` on the empty string,
while `seller.create_prices` silently emits a price update whose price
is the empty string. -/
theorem C5_amended_empty_price (s c q : String)
    (h : ∀ ch ∈ s.data.takeWhile (fun c => c ≠ '.'), ch.isDigit = false) :
    price_conversion s = "" ∧
    market_create_prices [⟨c, q, s⟩] [c] = .error .valueError ∧
    create_prices [⟨c, q, s⟩] [c] = [⟨"UNKNOWN", "RUB", c, "0", ""⟩] := by
  have hnil : (s.data.takeWhile (fun c => c ≠ '.')).filter Char.isDigit = [] :=
    List.filter_eq_nil_iff.mpr (by intro a ha; simp [h a ha])
  have hpc : price_conversion s = "" := by
    unfold price_conversion
    rw [hnil]
  have hempty : pyInt "" = none := by decide
  refine ⟨hpc, ?_, ?_⟩
  · simp [market_create_prices, hpc, hempty]
  · simp [create_prices, hpc]

/-- C5 witness at the empty price string of the spec's own example
table. -/
theorem C5_amended_empty_price_witness :
    price_conversion "" = "" ∧
    market_create_prices [⟨"A", "5", ""⟩] ["A"] = .error .valueError ∧
    create_prices [⟨"A", "5", ""⟩] ["A"] = [⟨"UNKNOWN", "RUB", "A", "0", ""⟩] :=
  C5_amended_empty_price "" "A" "5" (by decide)

/-- C6: for every positive chunk size `n`, `divide` succeeds and yields
exactly `ceil(len/n)` batches whose concatenation is the input in order;
every batch but possibly the last has length exactly `n`, every batch
has length between `1` and `n`, and a non-empty input yields at least
one batch. -/
theorem C6_chunk_roundtrip (lst : List α) (n : Int) (hn : 0 < n) :
    ∃ chunks, divide lst n = .ok chunks ∧
      chunks.flatten = lst ∧
      chunks.length = (lst.length + n.toNat - 1) / n.toNat ∧
      (∀ b ∈ chunks.dropLast, b.length = n.toNat) ∧
      (∀ b ∈ chunks, 1 ≤ b.length ∧ b.length ≤ n.toNat) ∧
      (lst ≠ [] → chunks ≠ []) := by
  obtain ⟨k, hk⟩ : ∃ k, n.toNat = k + 1 := ⟨n.toNat - 1, by omega⟩
  have hk1 : n.toNat - 1 = k := by omega
  refine ⟨chunksRec (n.toNat - 1) lst, divide_pos lst n hn, ?_, ?_, ?_, ?_, ?_⟩
  · rw [hk1]
    exact chunksRec_flatten k lst
  · rw [hk1, hk, chunksRec_length k lst]
    congr 1
  · rw [hk1, hk]
    exact chunksRec_dropLast k lst
  · rw [hk1, hk]
    exact chunksRec_mem_length k lst
  · rw [hk1]
    exact chunksRec_ne_nil k lst

/-- C6 witness: `[1,2,3,4,5]` in chunks of `2` — three batches, the last
of length `1`. -/
theorem C6_chunk_roundtrip_witness :
    ∃ chunks, divide ([1, 2, 3, 4, 5] : List Nat) 2 = .ok chunks ∧
      chunks.flatten = [1, 2, 3, 4, 5] ∧
      chunks.length =
        (([1, 2, 3, 4, 5] : List Nat).length + (2 : Int).toNat - 1) / (2 : Int).toNat ∧
      (∀ b ∈ chunks.dropLast, b.length = (2 : Int).toNat) ∧
      (∀ b ∈ chunks, 1 ≤ b.length ∧ b.length ≤ (2 : Int).toNat) ∧
      (([1, 2, 3, 4, 5] : List Nat) ≠ [] → chunks ≠ []) :=
  C6_chunk_roundtrip [1, 2, 3, 4, 5] 2 (by decide)

/-- C7 counterexample: for the negative size `-1`, `divide` raises
nothing at all — `range(0, 3, -1)` is empty, so the fully consumed
generator silently yields the empty chunking, exactly what the claim
says never happens. -/
theorem C7_counterexample : divide ([1, 2, 3] : List Nat) (-1) = .ok [] := by
  decide

/-- C7 (amended): only size `0` raises (`ValueError`, from
`range(0, len, 0)`, on first consumption of the generator); every
negative size silently yields the empty chunking for every input
list. -/
theorem C7_amended_nonpositive (lst : List α) (n : Int) :
    divide lst 0 = .error .valueError ∧ (n < 0 → divide lst n = .ok []) := by
  constructor
  · simp [divide, pyRange]
  · intro hn
    unfold divide pyRange
    rw [if_neg (by omega), if_pos hn]
    rfl

/-- C7 witness at list `[1, 2]` with sizes `0` and `-2`. -/
theorem C7_amended_nonpositive_witness :
    divide ([1, 2] : List Nat) 0 = .error .valueError ∧
    divide ([1, 2] : List Nat) (-2) = .ok [] :=
  ⟨(C7_amended_nonpositive [1, 2] (-2)).1,
   (C7_amended_nonpositive [1, 2] (-2)).2 (by decide)⟩
/-- C8: the stock-count heuristic applied to a matched record's quantity
text: `">10"` gives `100`, `"1"` gives `0`, any other numeric text gives
its base-10 value (`"7"` gives `7`, `"0"` gives `0`), and on
non-numeric, non-sentinel text the whole reconciliation raises
(`int(...)`'s `ValueError`, the spec's `InvalidQuantityFormat`). -/
theorem C8_quantity_heuristic (t : String) (v : Int) (code p : String) :
    stock_count ">10" = .ok 100 ∧
    stock_count "1" = .ok 0 ∧
    stock_count "7" = .ok 7 ∧
    stock_count "0" = .ok 0 ∧
    (t ≠ ">10" → t ≠ "1" → pyInt t = some v → stock_count t = .ok v) ∧
    (t ≠ ">10" → t ≠ "1" → pyInt t = some v →
      create_stocks [⟨code, t, p⟩] [code] = .ok ([⟨code, v⟩], [])) ∧
    (t ≠ ">10" → t ≠ "1" → pyInt t = none →
      create_stocks [⟨code, t, p⟩] [code] = .error .valueError) := by
  refine ⟨by decide, by decide, by decide, by decide, ?_, ?_, ?_⟩
  · intro h1 h2 hp
    unfold stock_count
    rw [if_neg h1, if_neg h2, hp]
  · intro h1 h2 hp
    have hsc : stock_count t = .ok v := by
      unfold stock_count
      rw [if_neg h1, if_neg h2, hp]
    simp [create_stocks, create_stocks_loop, hsc]
  · intro h1 h2 hp
    have hsc : stock_count t = .error .valueError := by
      unfold stock_count
      rw [if_neg h1, if_neg h2, hp]
    simp [create_stocks, create_stocks_loop, hsc]

/-- C8 witness: the `">10"` sentinel, and the non-numeric quantity
`"abc"` aborting reconciliation with the error. -/
theorem C8_quantity_heuristic_witness :
    stock_count ">10" = .ok 100 ∧
    create_stocks [⟨"A", "abc", "p"⟩] ["A"] = .error .valueError :=
  ⟨(C8_quantity_heuristic "abc" 0 "A" "p").1,
   (C8_quantity_heuristic "abc" 0 "A" "p").2.2.2.2.2.2 (by decide) (by decide) (by decide)⟩

lemma prefixItems_succ (pages : Nat → OzonPage) (k : Nat) :
    prefixItems pages (k + 1) = prefixItems pages k ++ (pages k).items := by
  unfold prefixItems
  rw [List.range_succ, List.map_append, List.flatten_append]
  simp

/-- One quantified step chain of the pagination loop: from call index
`k` with the first `k` pages accumulated, if the first stopping index at
or after `k` is `k + d` and at least `d + 1` iterations of fuel remain,
the loop returns the accumulation of pages `0 .. k + d`. -/
lemma get_offer_ids_loop_stops (pages : Nat → OzonPage) :
    ∀ (d k fuel : Nat), d < fuel →
      (pages (k + d)).total = (prefixItems pages (k + d + 1)).length →
      (∀ j, j < d → (pages (k + j)).total ≠ (prefixItems pages (k + j + 1)).length) →
      get_offer_ids_loop pages fuel k (prefixItems pages k) =
        some (prefixItems pages (k + d + 1)) := by
  intro d
  induction d with
  | zero =>
    intro k fuel hf hs _
    obtain ⟨f, rfl⟩ : ∃ f, fuel = f + 1 := ⟨fuel - 1, by omega⟩
    simp only [get_offer_ids_loop]
    rw [← prefixItems_succ pages k]
    rw [if_pos (by simpa using hs)]
  | succ d ih =>
    intro k fuel hf hs hmin
    obtain ⟨f, rfl⟩ : ∃ f, fuel = f + 1 := ⟨fuel - 1, by omega⟩
    simp only [get_offer_ids_loop]
    rw [← prefixItems_succ pages k]
    rw [if_neg (by simpa using hmin 0 (Nat.succ_pos d))]
    have hs' : (pages ((k + 1) + d)).total = (prefixItems pages ((k + 1) + d + 1)).length := by
      have harith1 : (k + 1) + d = k + (d + 1) := by omega
      rw [harith1]
      exact hs
    have hmin' : ∀ j, j < d →
        (pages ((k + 1) + j)).total ≠ (prefixItems pages ((k + 1) + j + 1)).length := by
      intro j hj
      have harith2 : (k + 1) + j = k + (j + 1) := by omega
      rw [harith2]
      exact hmin (j + 1) (by omega)
    have hres := ih (k + 1) f (by omega) hs' hmin'
    rw [hres]
    have harith3 : (k + 1) + d + 1 = k + (d + 1) + 1 := by omega
    rw [harith3]

/-- C9: under the total-count policy, if the pages are such that the
accumulated item count first equals the reported `total` after page
`m`, then `get_offer_ids` (with enough fuel) terminates having fetched
exactly pages `0 .. m` — stopping precisely when the accumulated count
equals `total` — and returns one offer id per accumulated item. -/
theorem C9_pagination_total_count (pages : Nat → OzonPage) (m fuel : Nat)
    (hstop : (pages m).total = (prefixItems pages (m + 1)).length)
    (hmin : ∀ j, j < m → (pages j).total ≠ (prefixItems pages (j + 1)).length)
    (hfuel : m < fuel) :
    get_offer_ids pages fuel =
      some ((prefixItems pages (m + 1)).map OzonProduct.offer_id) ∧
    ((prefixItems pages (m + 1)).map OzonProduct.offer_id).length = (pages m).total := by
  have h0 : prefixItems pages 0 = [] := rfl
  have h := get_offer_ids_loop_stops pages m 0 fuel hfuel (by simpa using hstop)
    (by intro j hj; simpa using hmin j hj)
  constructor
  · unfold get_offer_ids
    rw [← h0, h]
    simp
  · rw [List.length_map, ← hstop]

/-- A concrete deterministic page-fetch collaborator for the C9 witness:
two pages of two items each, the reported total of `4` first reached
after the second page. -/
def paginationExample : Nat → OzonPage := fun k =>
  if k = 0 then ⟨[⟨"a"⟩, ⟨"b"⟩], 4⟩
  else if k = 1 then ⟨[⟨"c"⟩, ⟨"d"⟩], 4⟩
  else ⟨[], 99⟩

/-- C9 witness: the loop stops after exactly two pages and returns the
four accumulated offer ids. -/
theorem C9_pagination_total_count_witness :
    get_offer_ids paginationExample 5 =
      some ((prefixItems paginationExample 2).map OzonProduct.offer_id) ∧
    ((prefixItems paginationExample 2).map OzonProduct.offer_id).length =
      (paginationExample 1).total :=
  C9_pagination_total_count paginationExample 1 5 (by decide) (by decide) (by decide)
